import Mathlib

/-!
http-tool: URL decomposition, response parsing, transport and profiling.

A shallow embedding of `src/http-tool.go`.

* A Go `string` / `[]byte` is a sequence of bytes.  It is modelled as `List Char`, one
  `Char` per byte (byte `b` is the character with code point `b`).  Every function below only
  compares bytes for equality with ASCII constants or reads ASCII digits, so nothing depends on
  how bytes above 127 are read.
* Go `int` values are modelled as `Int`, for a platform with a 64-bit `int`.  The one place
  where the width is observable, `strconv.Atoi` rejecting literals outside the 64-bit range, is
  modelled explicitly; the counters and the sum of two response times (millisecond counts of an
  `int64` nanosecond duration, hence below `2^44`) cannot overflow.
* A run-time panic is a value of `Fault`; functions that can panic return `Except Fault _`.
-/

namespace HttpTool

/-- Abnormal terminations: the run-time panics of the Go program that the model distinguishes,
and `outOfFuel` for a loop of the model that was given too few iterations (shown below never
to happen). -/
inductive Fault where
  | indexOutOfRange
  | nilDereference
  | outOfFuel
  deriving DecidableEq, Repr

/-- Go slice indexing `xs[i]`: panics when `i` is outside `0 ≤ i < len(xs)`. -/
def index {α : Type} (xs : List α) (i : Int) : Except Fault α :=
  if i < 0 then .error .indexOutOfRange
  else
    match xs[i.toNat]? with
    | some x => .ok x
    | none => .error .indexOutOfRange

/-! ## Standard-library functions used by the program -/

/-- Go `strings.HasPrefix(s, prefix)`. -/
def HasPrefix (s pre : List Char) : Bool :=
  pre.isPrefixOf s

/-- The splitting loop of Go `strings.genSplit` for a non-empty separator: `k` is the number of
cuts still allowed, `skip` the number of separator bytes still to be dropped after a cut, and
`cur` the bytes of the current piece in reverse order.  Cuts are made at the leftmost
non-overlapping occurrences of `sep`. -/
def splitLoop (sep : List Char) : List Char → Nat → Nat → List Char → List (List Char)
  | [], _, _, cur => [cur.reverse]
  | _ :: cs, k, skip + 1, cur => splitLoop sep cs k skip cur
  | c :: cs, 0, 0, cur => splitLoop sep cs 0 0 (c :: cur)
  | c :: cs, k + 1, 0, cur =>
    if sep.isPrefixOf (c :: cs) then
      cur.reverse :: splitLoop sep cs k (sep.length - 1) []
    else
      splitLoop sep cs (k + 1) 0 (c :: cur)

/-- Go `strings.SplitN(s, sep, n)`: `n = 0` gives no pieces, `n < 0` all pieces, `n > 0` at most
`n` pieces, the last one being the unsplit remainder.  For the empty separator Go cuts after
every character; the program never passes one. -/
def SplitN (s sep : List Char) (n : Int) : List (List Char) :=
  if n = 0 then []
  else if sep = [] then s.map (fun c => [c])
  else if n < 0 then splitLoop sep s s.length 0 []
  else splitLoop sep s (n.toNat - 1) 0 []

/-- Go `strings.Split(s, sep)`, which is `SplitN(s, sep, -1)`. -/
def Split (s sep : List Char) : List (List Char) :=
  SplitN s sep (-1)

/-- The digit loop of Go `strconv.Atoi`: every byte must be a decimal digit. -/
def atoiDigits : List Char → Nat → Option Nat
  | [], acc => some acc
  | c :: cs, acc =>
    if 48 ≤ c.toNat ∧ c.toNat ≤ 57 then atoiDigits cs (acc * 10 + (c.toNat - 48)) else none

/-- Go `strconv.Atoi(s)` for a 64-bit `int`: an optional sign followed by at least one decimal
digit, and a value within `-2^63 .. 2^63 - 1`; `none` stands for a non-nil error. -/
def Atoi (s : List Char) : Option Int :=
  match s with
  | [] => none
  | c :: cs =>
    let neg := decide (c = '-')
    let digits := if c = '-' ∨ c = '+' then cs else c :: cs
    if digits = [] then none
    else
      match atoiDigits digits 0 with
      | none => none
      | some v =>
        if neg then (if v ≤ 2 ^ 63 then some (-(v : Int)) else none)
        else (if v < 2 ^ 63 then some (v : Int) else none)

/-- Result of Go `(*bytes.Buffer).ReadString`: the bytes read, whether the delimiter was found
(`err == nil`), and the unread remainder of the buffer. -/
structure ReadResult where
  s : List Char
  found : Bool
  rest : List Char
  deriving DecidableEq, Repr

/-- Go `buf.ReadString(delim)`: reads up to and including the first `delim`; when the buffer
holds no `delim` it reads everything and reports `io.EOF`. -/
def ReadString (delim : Char) : List Char → ReadResult
  | [] => ⟨[], false, []⟩
  | c :: cs =>
    if c = delim then ⟨[c], true, cs⟩
    else
      let r := ReadString delim cs
      ⟨c :: r.s, r.found, r.rest⟩

/-- Go `sort.Ints`: the ascending rearrangement of the slice. -/
def sortInts (xs : List Int) : List Int :=
  xs.insertionSort (· ≤ ·)

/-- Source `Max` (lines 18-23). -/
def Max (x y : Int) : Int :=
  if x < y then y else x

/-- Source `Min` (lines 26-31). -/
def Min (x y : Int) : Int :=
  if x > y then y else x

/-! ## `parseURL` -/

/-- Source `parseURL` (lines 34-50). -/
def parseURL (url : List Char) : Except Fault (List Char × List Char) :=
  let stripped :=
    if HasPrefix url "http://".toList || HasPrefix url "https://".toList then
      index (Split url "//".toList) 1
    else
      .ok url
  match stripped with
  | .error e => .error e
  | .ok url =>
    let splitURL := SplitN url "/".toList 2
    match index splitURL 0 with
    | .error e => .error e
    | .ok host =>
      let resource := "/".toList
      if splitURL.length > 1 then
        match index splitURL 1 with
        | .error e => .error e
        | .ok piece => .ok (host, resource ++ piece)
      else
        .ok (host, resource)

/-- The bytes after the first occurrence of `sep`, when there is one. -/
def afterFirst (sep : List Char) : List Char → Option (List Char)
  | [] => if sep = [] then some [] else none
  | c :: cs =>
    if sep.isPrefixOf (c :: cs) then some ((c :: cs).drop sep.length) else afterFirst sep cs

/-- The bytes before the first occurrence of `sep` (everything when there is none). -/
def beforeFirst (sep : List Char) : List Char → List Char
  | [] => []
  | c :: cs => if sep.isPrefixOf (c :: cs) then [] else c :: beforeFirst sep cs

/-- The split of the specification: host is the part before the first `/`, resource is `/`
followed by the part after it when a `/` exists, otherwise `/`. -/
def splitHostResource (rest : List Char) : List Char × List Char :=
  match afterFirst "/".toList rest with
  | some tail => (beforeFirst "/".toList rest, '/' :: tail)
  | none => (rest, ['/'])

/-- Reference decomposition of a URL, in the specification's words: when the string starts with
`http://` or `https://`, everything up to and including the first `//` is stripped and the
whole rest is kept; the remainder is split at its first `/`. -/
def parseURLSpec (url : List Char) : List Char × List Char :=
  splitHostResource
    (if HasPrefix url "http://".toList || HasPrefix url "https://".toList then
      (afterFirst "//".toList url).getD url
    else url)

/-! ## `parseHTTPResponse` -/

/-- Exit of the header/body boundary loop. -/
inductive Scan where
  | found (body : List Char)
  | notFound
  | outOfFuel
  deriving DecidableEq, Repr

/-- The `for i := 1; i < len(content); i++` loop of `parseHTTPResponse` (lines 74-86), entered
at index `i` with the given `flag`, and run for at most `fuel` iterations. -/
def scanLoop (content : List Char) : Nat → Nat → Bool → Scan
  | 0, i, _ => if i < content.length then .outOfFuel else .notFound
  | fuel + 1, i, flag =>
    if i < content.length then
      if content[i - 1]? = some '\r' ∧ content[i]? = some '\n' then
        if flag = false then
          scanLoop content fuel (i + 1 + 1) true
        else
          .found (content.drop (i + 1))
      else
        scanLoop content fuel (i + 1) false
    else
      .notFound

/-- The loop's exit for the result of a first-occurrence search. -/
def Scan.ofSearch : Option (List Char) → Scan
  | some body => .found body
  | none => .notFound

/-- Source `parseHTTPResponse` (lines 53-89) on the bytes held by the buffer. -/
def parseHTTPResponse (buf : List Char) : Except Fault (Int × List Char) :=
  let r := ReadString '\n' buf
  if r.found = false then
    .ok (400, [])
  else
    let line := Split r.s " ".toList
    match index line 1 with
    | .error e => .error e
    | .ok tok =>
      match Atoi tok with
      | none => .ok (400, [])
      | some returnCode =>
        let content := r.rest
        match scanLoop content content.length 1 false with
        | .found body => .ok (returnCode, body)
        | .notFound => .ok (returnCode, [])
        | .outOfFuel => .error .outOfFuel

/-- The four bytes `\r\n\r\n`. -/
def crlfcrlf : List Char := ['\r', '\n', '\r', '\n']

/-- Reference search for the body, in the specification's words: the bytes after the first
occurrence of the 4-byte sequence `\r\n\r\n` in the whole buffer (empty when it does not
occur). -/
def bodySpec (buf : List Char) : List Char :=
  (afterFirst crlfcrlf buf).getD []

/-- Tokens of a line delimited by whitespace (space, tab, carriage return, line feed), as the
phrase "whitespace-delimited token" reads; `cur` holds the current token in reverse. -/
def fieldsLoop : List Char → List Char → List (List Char)
  | [], cur => if cur = [] then [] else [cur.reverse]
  | c :: cs, cur =>
    if c = ' ' ∨ c = '\t' ∨ c = '\r' ∨ c = '\n' then
      (if cur = [] then fieldsLoop cs [] else cur.reverse :: fieldsLoop cs [])
    else
      fieldsLoop cs (c :: cur)

/-- The whitespace-delimited tokens of a line. -/
def Fields (s : List Char) : List (List Char) :=
  fieldsLoop s []

/-! ## Transport client -/

/-- An established connection, reduced to what the program observes of it: the bytes the peer
sends before it closes the stream. -/
structure Conn where
  response : List Char
  deriving DecidableEq, Repr

/-- The network: `dial` stands for `net.Dial("tcp", addr)` and `tlsDial` for
`tls.Dial("tcp", addr, nil)`.  `none` is a failed dial, which in Go returns a nil connection
together with a non-nil error. -/
structure Network where
  dial : List Char → Option Conn
  tlsDial : List Char → Option Conn

/-- What one transport call did: the byte strings passed to `conn.Write`, whether
`parseHTTPResponse` was called, and how the call ended. -/
structure Exchange where
  written : List (List Char)
  parsed : Bool
  result : Except Fault (Int × List Char)

/-- The request bytes written by both transport functions (lines 103 and 124). -/
def requestBytes (h r : List Char) : List Char :=
  "GET ".toList ++ r ++ " HTTP/1.0\r\nHost: ".toList ++ h ++ "\r\n\r\n".toList

/-- Source `sendHTTPReq` (lines 92-110).  `conn` has the interface type `net.Conn`.  The
statement `defer conn.Close()` on line 96 comes before the error check and evaluates the
method value `conn.Close`; for a nil interface value that evaluation is a run-time panic, so a
failed dial never reaches `return 400, ""`. -/
def sendHTTPReq (net : Network) (url : List Char) : Exchange :=
  match parseURL url with
  | .error e => ⟨[], false, .error e⟩
  | .ok (h, r) =>
    match net.dial (h ++ ":80".toList) with
    -- line 96 panics on the nil connection; lines 98-101 are not reached
    | none => ⟨[], false, .error .nilDereference⟩
    -- lines 103-109: write the request, read to end of stream, parse
    | some conn => ⟨[requestBytes h r], true, parseHTTPResponse conn.response⟩

/-- The deferred `conn.Close()` of `sendHTTPSReq`, run when the function returns with `result`:
`(*tls.Conn).Close` reads the fields of its receiver, so on a nil `*tls.Conn` it panics and the
panic replaces the result. -/
def deferredClose (conn : Option Conn) (result : Except Fault (Int × List Char)) :
    Except Fault (Int × List Char) :=
  match conn with
  | none => .error .nilDereference
  | some _ => result

/-- Source `sendHTTPSReq` (lines 113-131).  `conn` is a `*tls.Conn`; `defer conn.Close()` on
line 117 only records the call, which then runs on every return, including the
`return 400, ""` of the error branch. -/
def sendHTTPSReq (net : Network) (url : List Char) : Exchange :=
  match parseURL url with
  | .error e => ⟨[], false, .error e⟩
  | .ok (h, r) =>
    let conn := net.tlsDial (h ++ ":443".toList)
    match conn with
    -- lines 119-122: `return 400, ""`, then the deferred call of line 117
    | none => ⟨[], false, deferredClose conn (.ok (400, []))⟩
    -- lines 124-130: write the request, read to end of stream, parse
    | some c =>
      ⟨[requestBytes h r], true, deferredClose conn (parseHTTPResponse c.response)⟩

/-- A network on which every dial fails (no route, refused connection, failed handshake). -/
def unreachable : Network :=
  { dial := fun _ => none, tlsDial := fun _ => none }

/-! ## Profiling engine -/

/-- What one profiling task brings to its critical section: the status code and body returned
by the transport call, and `duration.Milliseconds()`. -/
structure TaskResult where
  errorCode : Int
  resp : List Char
  millis : Int
  deriving DecidableEq, Repr

/-- The variables shared by the tasks of `sendMultipleReqs` (lines 157-162).  The running sum is
a `float64` in the source; it holds whole numbers of milliseconds and is kept here as an
integer, exact as long as it stays below `2^53`. -/
structure Aggregate where
  responseTimes : List Int
  errorCodes : List Int
  largestResponseSize : Int
  smallestResponseSize : Int
  successes : Int
  responseTimesSum : Int
  deriving DecidableEq, Repr

/-- Initial values of the shared variables (lines 157-162). -/
def Aggregate.init : Aggregate :=
  { responseTimes := []
    errorCodes := []
    largestResponseSize := 0
    smallestResponseSize := 100000
    successes := 0
    responseTimesSum := 0 }

/-- The critical section of one task (lines 174-187, identical on lines 198-211): everything
between `mu.Lock()` and `mu.Unlock()`. -/
def record (a : Aggregate) (t : TaskResult) : Aggregate :=
  if t.errorCode ≠ 200 then
    { a with errorCodes := a.errorCodes ++ [t.errorCode] }
  else
    { a with
      successes := a.successes + 1
      responseTimesSum := a.responseTimesSum + t.millis
      largestResponseSize := Max a.largestResponseSize t.resp.length
      smallestResponseSize := Min a.smallestResponseSize t.resp.length
      responseTimes := a.responseTimes ++ [t.millis] }

/-- The shared variables after the tasks have run their critical sections in the order given
(the mutex makes the sections atomic, so a run is a sequence of them). -/
def aggregate (tasks : List TaskResult) : Aggregate :=
  tasks.foldl record Aggregate.init

/-- The response times a run is about: the elapsed milliseconds of the tasks whose status code
is 200, in the order the tasks completed. -/
def successTimes (tasks : List TaskResult) : List Int :=
  (tasks.filter (fun t => decide (t.errorCode = 200))).map (fun t => t.millis)

/-- The median expression of line 224 on the sorted slice; Go integer division truncates. -/
def median (responseTimes : List Int) : Except Fault Int :=
  let n : Int := responseTimes.length
  match index responseTimes (n.tdiv 2), index responseTimes ((n - 1).tdiv 2) with
  | .ok hi, .ok lo => .ok ((hi + lo).tdiv 2)
  | .error e, _ => .error e
  | _, .error e => .error e

/-- The statistics printed inside `if successes > 0` (lines 221-227).  The mean is a `float64`
quotient in the source; its dividend and divisor are recorded. -/
structure Stats where
  fastest : Int
  slowest : Int
  meanDividend : Int
  meanDivisor : Int
  median : Int
  errorCodes : List Int
  largest : Int
  smallest : Int
  deriving DecidableEq, Repr

/-- Everything printed by the reporting step (lines 217-228). -/
structure Report where
  url : List Char
  numReqs : Int
  successes : Int
  stats : Option Stats
  deriving DecidableEq, Repr

/-- The reporting step of `sendMultipleReqs` (lines 216-228). -/
def report (url : List Char) (numReqs : Int) (a : Aggregate) : Except Fault Report :=
  let responseTimes := sortInts a.responseTimes
  if a.successes > 0 then
    match index responseTimes 0, index responseTimes ((responseTimes.length : Int) - 1),
      median responseTimes with
    | .ok fastest, .ok slowest, .ok med =>
      .ok
        { url := url
          numReqs := numReqs
          successes := a.successes
          stats := some
            { fastest := fastest
              slowest := slowest
              meanDividend := a.responseTimesSum
              meanDivisor := a.successes
              median := med
              errorCodes := a.errorCodes
              largest := a.largestResponseSize
              smallest := a.smallestResponseSize } }
    | .error e, _, _ => .error e
    | _, .error e, _ => .error e
    | _, _, .error e => .error e
  else
    .ok { url := url, numReqs := numReqs, successes := a.successes, stats := none }

/-- Source `sendMultipleReqs` (lines 156-229) for tasks that complete in the order given; one
task is launched per request, so the list has `numReqs` entries. -/
def sendMultipleReqs (url : List Char) (tasks : List TaskResult) : Except Fault Report :=
  report url tasks.length (aggregate tasks)

/-! ## Lemmas on the modelled library functions -/

theorem index_ok {α : Type} (xs : List α) (n : Nat) (h : n < xs.length) :
    index xs (n : Int) = .ok xs[n] := by
  simp [index, List.getElem?_eq_getElem h]

theorem index_in_range {α : Type} (xs : List α) (i : Int) (h0 : 0 ≤ i) (h : i < xs.length) :
    ∃ x, index xs i = .ok x := by
  obtain ⟨n, rfl⟩ := Int.eq_ofNat_of_zero_le h0
  exact ⟨_, index_ok xs n (by omega)⟩

theorem index_of_getElem? {α : Type} (xs : List α) (n : Nat) (x : α) (h : xs[n]? = some x) :
    index xs (n : Int) = .ok x := by
  simp [index, h]

theorem ReadString_append (first rest : List Char) (h : '\n' ∉ first) :
    ReadString '\n' (first ++ '\n' :: rest) = ⟨first ++ ['\n'], true, rest⟩ := by
  induction first with
  | nil => simp [ReadString]
  | cons c cs ih =>
    have hc : c ≠ '\n' := fun e => h (by simp [e])
    have hcs : '\n' ∉ cs := fun e => h (by simp [e])
    simp [ReadString, hc, ih hcs]

/-! ## The boundary loop finds the first `\r\n\r\n` -/

theorem scanLoop_short (pre suf : List Char) (fuel : Nat) (flag : Bool)
    (h : suf.length ≤ 1) : scanLoop (pre ++ suf) fuel (pre.length + 1) flag = .notFound := by
  cases fuel <;> simp [scanLoop] <;> omega

theorem afterFirst_short (suf : List Char) (h : suf.length ≤ 1) :
    afterFirst crlfcrlf suf = none := by
  match suf, h with
  | [], _ => simp [afterFirst, crlfcrlf]
  | [a], _ => simp [afterFirst, crlfcrlf, List.isPrefixOf]

theorem afterFirst_skip (a b : Char) (rest : List Char) (h : ¬ (a = '\r' ∧ b = '\n')) :
    afterFirst crlfcrlf (a :: b :: rest) = afterFirst crlfcrlf (b :: rest) := by
  have : crlfcrlf.isPrefixOf (a :: b :: rest) = false := by
    simp only [crlfcrlf, List.isPrefixOf, Bool.and_eq_false_imp, beq_iff_eq]
    intro h1 h2
    exact absurd ⟨h1.symm, h2.symm⟩ h
  simp [afterFirst, this]

theorem getElem?_append_two (pre : List Char) (a b : Char) (rest : List Char) :
    (pre ++ a :: b :: rest)[pre.length]? = some a ∧
      (pre ++ a :: b :: rest)[pre.length + 1]? = some b := by
  constructor
  · rw [List.getElem?_append_right (Nat.le_refl _)]
    simp
  · rw [List.getElem?_append_right (Nat.le_succ _)]
    have e : pre.length.succ - pre.length = 1 := by omega
    rw [e]
    simp

theorem scanLoop_true_step (pre : List Char) (c d : Char) (rest : List Char) (fuel : Nat) :
    scanLoop (pre ++ c :: d :: rest) (fuel + 1) (pre.length + 1) true =
      if c = '\r' ∧ d = '\n' then .found rest
      else scanLoop (pre ++ c :: d :: rest) fuel (pre.length + 1 + 1) false := by
  have hd : List.drop (pre.length + 1 + 1) (pre ++ c :: d :: rest) = rest := by
    rw [Nat.add_assoc, List.drop_append]
    rfl
  obtain ⟨h0, h1⟩ := getElem?_append_two pre c d rest
  have hlt : pre.length + 1 < (pre ++ c :: d :: rest).length := by simp
  simp only [scanLoop, hlt, if_true, Nat.add_sub_cancel, h0, h1, hd, Option.some.injEq]
  simp

theorem scanLoop_false_step (pre : List Char) (a b : Char) (rest : List Char) (fuel : Nat) :
    scanLoop (pre ++ a :: b :: rest) (fuel + 1) (pre.length + 1) false =
      if a = '\r' ∧ b = '\n' then
        scanLoop (pre ++ a :: b :: rest) fuel (pre.length + 1 + 1 + 1) true
      else scanLoop (pre ++ a :: b :: rest) fuel (pre.length + 1 + 1) false := by
  obtain ⟨h0, h1⟩ := getElem?_append_two pre a b rest
  have hlt : pre.length + 1 < (pre ++ a :: b :: rest).length := by simp
  simp only [scanLoop, hlt, if_true, Nat.add_sub_cancel, h0, h1, Option.some.injEq]

/-- From any index with the flag clear, the loop returns what a search for the first
`\r\n\r\n` in the bytes from the previous index on returns; `fuel` iterations are enough as
soon as they cover the bytes left. -/
theorem scanLoop_eq_afterFirst (fuel : Nat) :
    ∀ pre suf : List Char, suf.length ≤ fuel + 1 →
      scanLoop (pre ++ suf) fuel (pre.length + 1) false =
        Scan.ofSearch (afterFirst crlfcrlf suf) := by
  induction fuel using Nat.strong_induction_on with
  | _ fuel ih =>
    intro pre suf hlen
    match suf, hlen with
    | [], _ => rw [scanLoop_short _ _ _ _ (by simp), afterFirst_short _ (by simp)]; rfl
    | [a], _ => rw [scanLoop_short _ _ _ _ (by simp), afterFirst_short _ (by simp)]; rfl
    | a :: b :: rest, hlen =>
      obtain ⟨f, rfl⟩ : ∃ f, fuel = f + 1 := ⟨fuel - 1, by simp at hlen; omega⟩
      rw [scanLoop_false_step]
      by_cases hab : a = '\r' ∧ b = '\n'
      · rw [if_pos hab]
        obtain ⟨rfl, rfl⟩ := hab
        match rest, hlen with
        | [], _ =>
          have := scanLoop_short (pre ++ ['\r', '\n']) [] f true (by simp)
          simp only [List.append_assoc, List.length_append, List.length_cons, List.length_nil,
            List.cons_append, List.nil_append] at this
          rw [this]
          simp [afterFirst, crlfcrlf, List.isPrefixOf, Scan.ofSearch]
        | [x], _ =>
          have := scanLoop_short (pre ++ ['\r', '\n']) [x] f true (by simp)
          simp only [List.append_assoc, List.length_append, List.length_cons, List.length_nil,
            List.cons_append, List.nil_append] at this
          rw [this]
          simp [afterFirst, crlfcrlf, List.isPrefixOf, Scan.ofSearch]
        | c :: d :: rest2, hlen =>
          obtain ⟨g, rfl⟩ : ∃ g, f = g + 1 := ⟨f - 1, by simp at hlen; omega⟩
          have hstep := scanLoop_true_step (pre ++ ['\r', '\n']) c d rest2 g
          simp only [List.append_assoc, List.length_append, List.length_cons, List.length_nil,
            List.cons_append, List.nil_append] at hstep
          rw [hstep]
          by_cases hcd : c = '\r' ∧ d = '\n'
          · rw [if_pos hcd]
            obtain ⟨rfl, rfl⟩ := hcd
            simp [afterFirst, crlfcrlf, List.isPrefixOf, Scan.ofSearch]
          · rw [if_neg hcd]
            have hrec := ih g (by omega) (pre ++ ['\r', '\n', c]) (d :: rest2)
              (by simp at hlen ⊢; omega)
            simp only [List.append_assoc, List.length_append, List.length_cons, List.length_nil,
              List.cons_append, List.nil_append] at hrec
            rw [hrec]
            have e1 : afterFirst crlfcrlf ('\r' :: '\n' :: c :: d :: rest2) =
                afterFirst crlfcrlf ('\n' :: c :: d :: rest2) := by
              have : crlfcrlf.isPrefixOf ('\r' :: '\n' :: c :: d :: rest2) = false := by
                simp only [crlfcrlf, List.isPrefixOf, Bool.and_eq_false_imp, beq_iff_eq]
                intro _ _ h1 h2
                exact absurd ⟨h1.symm, h2.symm⟩ hcd
              simp [afterFirst, this]
            rw [e1, afterFirst_skip _ _ _ (by simp), afterFirst_skip _ _ _ hcd]
      · rw [if_neg hab]
        have hrec := ih f (by omega) (pre ++ [a]) (b :: rest) (by simp at hlen ⊢; omega)
        simp only [List.append_assoc, List.length_append, List.length_cons, List.length_nil,
          List.cons_append, List.nil_append] at hrec
        rw [hrec, afterFirst_skip _ _ _ hab]

/-! ## First-occurrence search, stated with sub-list relations -/

theorem afterFirst_some_occurs (sep : List Char) :
    ∀ (l post : List Char), afterFirst sep l = some post → sep <:+: l := by
  intro l
  induction l with
  | nil =>
    intro post h
    by_cases hs : sep = []
    · subst hs; exact List.nil_infix
    · simp [afterFirst, hs] at h
  | cons c cs ih =>
    intro post h
    by_cases hp : sep.isPrefixOf (c :: cs) = true
    · exact (List.isPrefixOf_iff_prefix.mp hp).isInfix
    · simp only [afterFirst, hp] at h
      obtain ⟨s, t, e⟩ := ih post (by simpa using h)
      exact ⟨c :: s, t, by simp [← e]⟩

theorem afterFirst_none_of_absent (sep l : List Char) (h : ¬ sep <:+: l) :
    afterFirst sep l = none := by
  cases hq : afterFirst sep l with
  | none => rfl
  | some post => exact absurd (afterFirst_some_occurs sep l post hq) h

theorem afterFirst_first_occurrence (sep : List Char) (hsep : sep ≠ []) :
    ∀ (pre post : List Char), ¬ sep <:+: pre ++ sep.dropLast →
      afterFirst sep (pre ++ sep ++ post) = some post := by
  intro pre
  induction pre with
  | nil =>
    intro post _
    obtain ⟨c, cs, rfl⟩ := List.exists_cons_of_ne_nil hsep
    have hp : (c :: cs).isPrefixOf (c :: (cs ++ post)) = true :=
      List.isPrefixOf_iff_prefix.mpr (List.prefix_append (c :: cs) post)
    show afterFirst (c :: cs) (c :: (cs ++ post)) = some post
    rw [afterFirst, if_pos hp]
    show some (List.drop (c :: cs).length ((c :: cs) ++ post)) = some post
    rw [List.drop_left]
  | cons p ps ih =>
    intro post hno
    have hnp : sep.isPrefixOf (p :: (ps ++ sep ++ post)) = false := by
      cases hq : sep.isPrefixOf (p :: (ps ++ sep ++ post)) with
      | false => rfl
      | true =>
        exfalso
        apply hno
        have h1 : sep <+: (p :: ps) ++ sep ++ post := by
          simpa using List.isPrefixOf_iff_prefix.mp hq
        have h2 : (p :: ps) ++ sep.dropLast <+: (p :: ps) ++ sep ++ post := by
          rw [List.append_assoc]
          exact (List.prefix_append_right_inj _).mpr
            ((List.dropLast_prefix sep).trans (List.prefix_append _ _))
        have h3 : sep.length ≤ ((p :: ps) ++ sep.dropLast).length := by
          have : 0 < sep.length := List.length_pos.mpr hsep
          simp only [List.length_append, List.length_cons, List.length_dropLast]
          omega
        exact (List.prefix_of_prefix_length_le h1 h2 h3).isInfix
    have hrec := ih post (fun hinf => hno (by
      obtain ⟨s, t, e⟩ := hinf
      exact ⟨p :: s, t, by simp [← e]⟩))
    show afterFirst sep (p :: (ps ++ sep ++ post)) = some post
    rw [afterFirst, if_neg (Bool.eq_false_iff.mp hnp)]
    exact hrec

/-! ## Claims on `parseHTTPResponse` -/

/-- Once the status line has yielded the code `n`, the result is `n` with what the search for
the first `\r\n\r\n` in the remaining bytes returns; the loop never runs out of fuel. -/
theorem parseHTTPResponse_of_status (first rest tok : List Char) (n : Int)
    (hline : '\n' ∉ first)
    (htok : (Split (first ++ ['\n']) [' '])[1]? = some tok)
    (hint : Atoi tok = some n) :
    parseHTTPResponse (first ++ '\n' :: rest) =
      .ok (n, (afterFirst crlfcrlf rest).getD []) := by
  have hidx : index (Split (first ++ ['\n']) " ".toList) 1 = .ok tok :=
    index_of_getElem? _ 1 tok htok
  have hscan := scanLoop_eq_afterFirst rest.length [] rest (Nat.le_succ _)
  simp only [List.nil_append, List.length_nil, Nat.zero_add] at hscan
  simp only [parseHTTPResponse, ReadString_append first rest hline, hidx, hint, hscan]
  cases afterFirst crlfcrlf rest <;> simp [Scan.ofSearch]

/-- The loop of `parseHTTPResponse` is given enough iterations: no buffer makes the model stop
for lack of fuel. -/
theorem parseHTTPResponse_fuel_suffices (buf : List Char) :
    parseHTTPResponse buf ≠ .error .outOfFuel := by
  have hscan := scanLoop_eq_afterFirst (ReadString '\n' buf).rest.length []
    (ReadString '\n' buf).rest (Nat.le_succ _)
  simp only [List.nil_append, List.length_nil, Nat.zero_add] at hscan
  unfold parseHTTPResponse
  simp only [hscan]
  cases (ReadString '\n' buf).found
  · simp
  · cases hidx : index (Split (ReadString '\n' buf).s " ".toList) 1 with
    | error e =>
      have he : e = .indexOutOfRange := by
        unfold index at hidx
        split at hidx
        · cases hidx; rfl
        · split at hidx
          · cases hidx
          · cases hidx; rfl
      simp [he]
    | ok tok =>
      cases hA : Atoi tok with
      | none => simp [hA]
      | some n =>
        cases hB : afterFirst crlfcrlf (ReadString '\n' buf).rest <;> simp [hA, Scan.ofSearch]

theorem ReadString_no_delim (buf : List Char) (h : '\n' ∉ buf) :
    (ReadString '\n' buf).found = false := by
  induction buf with
  | nil => rfl
  | cons c cs ih =>
    have hc : c ≠ '\n' := fun e => h (by simp [e])
    have hcs : '\n' ∉ cs := fun e => h (by simp [e])
    simp [ReadString, hc, ih hcs]

/-- A buffer without `\n`, the empty buffer included, gives `(400, "")`. -/
theorem parseHTTPResponse_no_newline (buf : List Char) (h : '\n' ∉ buf) :
    parseHTTPResponse buf = .ok (400, []) := by
  simp [parseHTTPResponse, ReadString_no_delim buf h]

/-- A second piece that is not a valid integer gives `(400, "")`. -/
theorem parseHTTPResponse_bad_code (first rest tok : List Char)
    (hline : '\n' ∉ first)
    (htok : (Split (first ++ ['\n']) [' '])[1]? = some tok)
    (hint : Atoi tok = none) :
    parseHTTPResponse (first ++ '\n' :: rest) = .ok (400, []) := by
  have hidx : index (Split (first ++ ['\n']) " ".toList) 1 = .ok tok :=
    index_of_getElem? _ 1 tok htok
  simp only [parseHTTPResponse, ReadString_append first rest hline, hidx, hint]
  rfl

theorem splitLoop_no_sep (c : Char) :
    ∀ (s : List Char) (k : Nat) (cur : List Char), c ∉ s →
      splitLoop [c] s k 0 cur = [cur.reverse ++ s] := by
  intro s
  induction s with
  | nil => intro k cur _; simp [splitLoop]
  | cons x xs ih =>
    intro k cur h
    have hx : x ≠ c := fun e => h (by simp [e])
    have hxs : c ∉ xs := fun e => h (by simp [e])
    cases k with
    | zero => rw [splitLoop, ih 0 (x :: cur) hxs]; simp
    | succ j =>
      have hp : ¬ ([c].isPrefixOf (x :: xs) = true) := by
        simp [List.isPrefixOf, Ne.symm hx]
      rw [splitLoop, if_neg hp, ih (j + 1) (x :: cur) hxs]
      simp

/-- A first line without any space byte makes `line[1]` panic, whatever follows it. -/
theorem parseHTTPResponse_no_space (first rest : List Char)
    (hline : '\n' ∉ first) (hsp : ' ' ∉ first) :
    parseHTTPResponse (first ++ '\n' :: rest) = .error .indexOutOfRange := by
  have hs : ' ' ∉ first ++ ['\n'] := by
    simp only [List.mem_append, List.mem_singleton, not_or]
    exact ⟨hsp, by decide⟩
  have e : " ".toList = [' '] := rfl
  have hsplit : Split (first ++ ['\n']) " ".toList = [first ++ ['\n']] := by
    rw [e]
    simp only [Split, SplitN]
    simpa using splitLoop_no_sep ' ' (first ++ ['\n']) _ [] hs
  simp only [parseHTTPResponse, ReadString_append first rest hline, hsplit]
  rfl

/-- C1: when the first line ends in `\n` and the second piece of its split at spaces is a
valid integer `n`, `parseHTTPResponse` returns `n` with exactly the bytes that follow the first
occurrence of `\r\n\r\n` in the bytes after the first line, and `(n, "")` when those bytes
hold no `\r\n\r\n`. -/
theorem parseHTTPResponse_body_after_blank_line (first rest tok : List Char) (n : Int)
    (hline : '\n' ∉ first)
    (htok : (Split (first ++ ['\n']) [' '])[1]? = some tok)
    (hint : Atoi tok = some n) :
    (∀ pre post : List Char, rest = pre ++ crlfcrlf ++ post →
        ¬ crlfcrlf <:+: pre ++ ['\r', '\n', '\r'] →
        parseHTTPResponse (first ++ '\n' :: rest) = .ok (n, post)) ∧
    (¬ crlfcrlf <:+: rest →
        parseHTTPResponse (first ++ '\n' :: rest) = .ok (n, [])) := by
  have hmain := parseHTTPResponse_of_status first rest tok n hline htok hint
  constructor
  · intro pre post hrest hfirst
    have hocc : afterFirst crlfcrlf (pre ++ crlfcrlf ++ post) = some post :=
      afterFirst_first_occurrence crlfcrlf (by simp [crlfcrlf]) pre post hfirst
    rw [hmain, hrest, hocc]
    rfl
  · intro hnone
    rw [hmain, afterFirst_none_of_absent crlfcrlf rest hnone]
    rfl

/-- C1, at the specification's example: `"HTTP/1.0 200 OK\r\nHeader: x\r\n\r\nBODY"` parses
to `(200, "BODY")`. -/
theorem parseHTTPResponse_body_after_blank_line_witness :
    parseHTTPResponse "HTTP/1.0 200 OK\r\nHeader: x\r\n\r\nBODY".toList =
      .ok (200, "BODY".toList) :=
  (parseHTTPResponse_body_after_blank_line "HTTP/1.0 200 OK\r".toList
    "Header: x\r\n\r\nBODY".toList "200".toList 200 (by decide) rfl rfl).1
    "Header: x".toList "BODY".toList rfl (by decide)

/-- C2: on the first line `"HTTP/1.0\n"`, which has no second space-separated piece, the
expression `line[1]` panics with an index out of range; no `(400, "")` is returned. -/
theorem parseHTTPResponse_panics_without_second_token :
    parseHTTPResponse "HTTP/1.0\n".toList = .error .indexOutOfRange := by
  rfl

/-- C3 as stated fails: the second whitespace-delimited token of `"HTTP/1.0 404\r\n"` is the
valid integer `404`, yet the status code returned is `400`. -/
theorem parseHTTPResponse_status_counterexample :
    ¬ (∀ (buf tok : List Char) (n : Int),
        (Fields (ReadString '\n' buf).s)[1]? = some tok → Atoi tok = some n →
        ∃ body, parseHTTPResponse buf = .ok (n, body)) := by
  intro h
  obtain ⟨body, hb⟩ := h "HTTP/1.0 404\r\n".toList "404".toList 404 rfl rfl
  have hcode : parseHTTPResponse "HTTP/1.0 404\r\n".toList = .ok (400, []) := rfl
  rw [hcode] at hb
  cases hb

/-- C3, amended: when the buffer holds a `\n` and the second piece of the first line (its
terminator included) split at every space byte is a valid integer `n` for `strconv.Atoi`, the
status code returned is `n`. -/
theorem parseHTTPResponse_status_code (first rest tok : List Char) (n : Int)
    (hline : '\n' ∉ first)
    (htok : (Split (first ++ ['\n']) [' '])[1]? = some tok)
    (hint : Atoi tok = some n) :
    ∃ body, parseHTTPResponse (first ++ '\n' :: rest) = .ok (n, body) :=
  ⟨_, parseHTTPResponse_of_status first rest tok n hline htok hint⟩

/-- C3, amended, at `"HTTP/1.0 404 Not Found\r\n\r\n"`: the status code is `404`. -/
theorem parseHTTPResponse_status_code_witness :
    ∃ body, parseHTTPResponse "HTTP/1.0 404 Not Found\r\n\r\n".toList = .ok (404, body) :=
  parseHTTPResponse_status_code "HTTP/1.0 404 Not Found\r".toList "\r\n".toList
    "404".toList 404 (by decide) rfl rfl

theorem afterFirst_skip_one (a : Char) (l : List Char) (h : a ≠ '\r') :
    afterFirst crlfcrlf (a :: l) = afterFirst crlfcrlf l := by
  have hp : ¬ (crlfcrlf.isPrefixOf (a :: l) = true) := by
    simp [crlfcrlf, List.isPrefixOf, Ne.symm h]
  rw [afterFirst, if_neg hp]

/-- The search in the whole buffer and the search in the bytes after the status line find the
same body when the status line holds no `\r` before its final `\r\n` and the line after it
is not blank. -/
theorem bodySpec_after_status (status rest : List Char) (hcr : '\r' ∉ status)
    (hhead : ∀ t, rest ≠ '\r' :: '\n' :: t) :
    bodySpec (status ++ '\r' :: '\n' :: rest) = (afterFirst crlfcrlf rest).getD [] := by
  unfold bodySpec
  congr 1
  induction status with
  | nil =>
    have h1 : ¬ (crlfcrlf.isPrefixOf ('\r' :: '\n' :: rest) = true) := by
      intro hp
      obtain ⟨t, ht⟩ := List.isPrefixOf_iff_prefix.mp hp
      exact hhead t (by simpa [crlfcrlf] using ht.symm)
    rw [List.nil_append, afterFirst, if_neg h1, afterFirst_skip_one _ _ (by decide)]
  | cons c cs ih =>
    have hc : c ≠ '\r' := fun e => hcr (by simp [e])
    have hcs : '\r' ∉ cs := fun e => hcr (by simp [e])
    rw [List.cons_append, afterFirst_skip_one _ _ hc, ih hcs]

/-- With at least one header line the code returns the body of the reference search. -/
theorem parseHTTPResponse_agrees_with_headers (status rest tok : List Char) (n : Int)
    (hcr : '\r' ∉ status) (hlf : '\n' ∉ status)
    (hhead : ∀ t, rest ≠ '\r' :: '\n' :: t)
    (htok : (Split (status ++ ['\r', '\n']) [' '])[1]? = some tok)
    (hint : Atoi tok = some n) :
    parseHTTPResponse (status ++ '\r' :: '\n' :: rest) =
      .ok (n, bodySpec (status ++ '\r' :: '\n' :: rest)) := by
  have hline : '\n' ∉ status ++ ['\r'] := by
    simp only [List.mem_append, List.mem_singleton, not_or]
    exact ⟨hlf, by decide⟩
  have h := parseHTTPResponse_of_status (status ++ ['\r']) rest tok n hline
    (by simpa using htok) hint
  rw [bodySpec_after_status status rest hcr hhead]
  simpa using h

/-- C4: on the well-formed response `"HTTP/1.0 200 OK\r\n\r\nBODY"`, which has no header
line, `parseHTTPResponse` returns an empty body while the reference search for the first
`\r\n\r\n` in the whole buffer returns `"BODY"`. -/
theorem parseHTTPResponse_loses_body_without_headers :
    parseHTTPResponse "HTTP/1.0 200 OK\r\n\r\nBODY".toList = .ok (200, []) ∧
      bodySpec "HTTP/1.0 200 OK\r\n\r\nBODY".toList = "BODY".toList := by
  constructor <;> rfl

/-! ## Claims on `parseURL` -/

theorem splitLoop_skip (sep : List Char) :
    ∀ (s : List Char) (k skip : Nat) (cur : List Char),
      splitLoop sep s k skip cur = splitLoop sep (s.drop skip) k 0 cur := by
  intro s
  induction s with
  | nil => intro k skip cur; cases skip <;> simp [splitLoop]
  | cons c cs ih =>
    intro k skip cur
    cases skip with
    | zero => rfl
    | succ m => rw [splitLoop, ih k m cur]; rfl

theorem splitLoop_no_cut (sep : List Char) :
    ∀ (s cur : List Char), splitLoop sep s 0 0 cur = [cur.reverse ++ s] := by
  intro s
  induction s with
  | nil => intro cur; simp [splitLoop]
  | cons c cs ih => intro cur; rw [splitLoop, ih (c :: cur)]; simp

theorem beforeFirst_of_absent (sep : List Char) :
    ∀ s : List Char, afterFirst sep s = none → beforeFirst sep s = s := by
  intro s
  induction s with
  | nil => intro _; rfl
  | cons c cs ih =>
    intro h
    by_cases hp : sep.isPrefixOf (c :: cs) = true
    · simp [afterFirst, hp] at h
    · rw [afterFirst, if_neg hp] at h
      rw [beforeFirst, if_neg hp, ih h]

/-- One cut of the splitting loop: the piece before the first separator, then the loop on the
bytes after it. -/
theorem splitLoop_cut (sep : List Char) (hsep : sep ≠ []) :
    ∀ (s : List Char) (k : Nat) (cur : List Char),
      splitLoop sep s (k + 1) 0 cur =
        match afterFirst sep s with
        | none => [cur.reverse ++ s]
        | some tail => (cur.reverse ++ beforeFirst sep s) :: splitLoop sep tail k 0 [] := by
  intro s
  induction s with
  | nil => intro k cur; simp [splitLoop, afterFirst, hsep]
  | cons c cs ih =>
    intro k cur
    by_cases hp : sep.isPrefixOf (c :: cs) = true
    · obtain ⟨x, xs, rfl⟩ := List.exists_cons_of_ne_nil hsep
      rw [splitLoop, if_pos hp, splitLoop_skip, afterFirst, if_pos hp, beforeFirst, if_pos hp]
      simp
    · rw [splitLoop, if_neg hp, ih k (c :: cur), afterFirst, if_neg hp, beforeFirst, if_neg hp]
      cases afterFirst sep cs <;> simp

theorem SplitN_slash_two (u : List Char) :
    SplitN u "/".toList 2 =
      match afterFirst "/".toList u with
      | none => [u]
      | some tail => [beforeFirst "/".toList u, tail] := by
  have e : "/".toList = ['/'] := rfl
  rw [e]
  have h := splitLoop_cut ['/'] (by simp) u 0 []
  simp only [SplitN]
  simp only [List.reverse_nil, List.nil_append] at h
  cases ha : afterFirst ['/'] u with
  | none => rw [ha] at h; simpa using h
  | some tail => rw [ha] at h; simpa [splitLoop_no_cut] using h

/-- After the optional scheme has been stripped, the code splits host and resource as the
specification does. -/
theorem parseURL_tail (u : List Char) :
    (match index (SplitN u "/".toList 2) 0 with
      | .error e => (.error e : Except Fault (List Char × List Char))
      | .ok host =>
        if (SplitN u "/".toList 2).length > 1 then
          match index (SplitN u "/".toList 2) 1 with
          | .error e => .error e
          | .ok piece => .ok (host, "/".toList ++ piece)
        else .ok (host, "/".toList)) = .ok (splitHostResource u) := by
  rw [SplitN_slash_two, splitHostResource]
  cases afterFirst "/".toList u <;> rfl

theorem splitHostResource_slash (u : List Char) :
    ∃ host tail, splitHostResource u = (host, '/' :: tail) := by
  unfold splitHostResource
  cases afterFirst "/".toList u with
  | none => exact ⟨_, _, rfl⟩
  | some t => exact ⟨_, _, rfl⟩

theorem afterFirst_scheme (url : List Char)
    (h : (HasPrefix url "http://".toList || HasPrefix url "https://".toList) = true) :
    ∃ rest, afterFirst "//".toList url = some rest ∧ 7 ≤ url.length := by
  have e1 : "http://".toList = ['h', 't', 't', 'p', ':', '/', '/'] := rfl
  have e2 : "https://".toList = ['h', 't', 't', 'p', 's', ':', '/', '/'] := rfl
  have e3 : "//".toList = ['/', '/'] := rfl
  rw [Bool.or_eq_true] at h
  rcases h with h | h
  · obtain ⟨t, rfl⟩ := List.isPrefixOf_iff_prefix.mp h
    rw [e1, e3]
    exact ⟨t, by simp [afterFirst, List.isPrefixOf], by simp⟩
  · obtain ⟨t, rfl⟩ := List.isPrefixOf_iff_prefix.mp h
    rw [e2, e3]
    exact ⟨t, by simp [afterFirst, List.isPrefixOf], by simp⟩

/-- What line 36 keeps of a URL with a scheme: the bytes between the first `//` and the next
`//` (all the bytes after the first `//` when no other follows). -/
theorem Split_scheme_second (url rest : List Char) (hlen : 7 ≤ url.length)
    (hrest : afterFirst "//".toList url = some rest) :
    index (Split url "//".toList) 1 = .ok (beforeFirst "//".toList rest) := by
  have e3 : "//".toList = ['/', '/'] := rfl
  rw [e3] at hrest ⊢
  obtain ⟨k, hk⟩ : ∃ k, url.length = k + 1 + 1 := ⟨url.length - 2, by omega⟩
  have h1 := splitLoop_cut ['/', '/'] (by simp) url (k + 1) []
  rw [hrest] at h1
  have h2 := splitLoop_cut ['/', '/'] (by simp) rest k []
  apply index_of_getElem?
  simp only [Split, SplitN, hk]
  simp only [List.reverse_nil, List.nil_append] at h1 h2
  simp only [Int.reduceNeg, Int.reduceEq, if_false, List.cons_ne_nil, Int.reduceLT, if_true]
  try simp only [reduceCtorEq, if_false]
  rw [h1, h2]
  cases ha : afterFirst ['/', '/'] rest with
  | none => simp [beforeFirst_of_absent _ _ ha]
  | some tail => simp

/-- The value of `parseURL` on every input: the specification's split, applied to the bytes
the code keeps. -/
theorem parseURL_eq (url : List Char) :
    parseURL url = .ok (splitHostResource
      (if HasPrefix url "http://".toList || HasPrefix url "https://".toList then
        beforeFirst "//".toList ((afterFirst "//".toList url).getD url)
      else url)) := by
  unfold parseURL
  by_cases h : (HasPrefix url "http://".toList || HasPrefix url "https://".toList) = true
  · obtain ⟨rest, hrest, hlen⟩ := afterFirst_scheme url h
    have hi := Split_scheme_second url rest hlen hrest
    simp only [h, if_true, hi, hrest, Option.getD_some]
    exact parseURL_tail _
  · simp only [h]
    exact parseURL_tail url

/-- The code agrees with the reference decomposition on every URL without a scheme and on
every URL with a scheme whose remainder after the first `//` holds no further `//`. -/
theorem parseURL_agrees (url : List Char)
    (h : ∀ rest, afterFirst "//".toList url = some rest → afterFirst "//".toList rest = none) :
    parseURL url = .ok (parseURLSpec url) := by
  rw [parseURL_eq, parseURLSpec]
  by_cases hs : (HasPrefix url "http://".toList || HasPrefix url "https://".toList) = true
  · obtain ⟨rest, hrest, _⟩ := afterFirst_scheme url hs
    simp only [hs, if_true, hrest, Option.getD_some, beforeFirst_of_absent _ _ (h rest hrest)]
  · simp only [if_neg hs]

/-- C5: on `"http://a.com/x//y"` the code keeps only the bytes between the first and the second
`//`, giving `("a.com", "/x")`, while the reference decomposition keeps the whole rest and
gives `("a.com", "/x//y")`. -/
theorem parseURL_drops_bytes_after_second_double_slash :
    parseURL "http://a.com/x//y".toList = .ok ("a.com".toList, "/x".toList) ∧
      parseURLSpec "http://a.com/x//y".toList = ("a.com".toList, "/x//y".toList) := by
  constructor <;> rfl

/-- C6: for every input string `parseURL` returns normally, and the resource it returns starts
with `/`. -/
theorem parseURL_resource_starts_with_slash (url : List Char) :
    ∃ host tail, parseURL url = .ok (host, '/' :: tail) := by
  obtain ⟨host, tail, h⟩ := splitHostResource_slash
    (if HasPrefix url "http://".toList || HasPrefix url "https://".toList then
      beforeFirst "//".toList ((afterFirst "//".toList url).getD url)
    else url)
  exact ⟨host, tail, by rw [parseURL_eq, h]⟩

/-! ## Claim on the transport client -/

/-- On every URL, a failed dial ends both transport functions in a panic, before anything is
written or parsed. -/
theorem transport_dial_failure (net : Network) (url : List Char)
    (hdial : ∀ addr, net.dial addr = none) (htls : ∀ addr, net.tlsDial addr = none) :
    (sendHTTPReq net url).result = .error .nilDereference ∧
      (sendHTTPSReq net url).result = .error .nilDereference ∧
      (sendHTTPReq net url).written = [] ∧ (sendHTTPSReq net url).written = [] ∧
      (sendHTTPReq net url).parsed = false ∧ (sendHTTPSReq net url).parsed = false := by
  simp [sendHTTPReq, sendHTTPSReq, parseURL_eq, hdial, htls, deferredClose]

/-- C7: when the dial fails, neither transport function returns `(400, "")`: `sendHTTPReq`
panics at `defer conn.Close()` on the nil connection, and `sendHTTPSReq` panics when the deferred
`conn.Close()` runs on the nil `*tls.Conn`.  Nothing is written and the parser is not called. -/
theorem transport_panics_when_dial_fails :
    (sendHTTPReq unreachable "example.invalid/".toList).result = .error .nilDereference ∧
      (sendHTTPSReq unreachable "example.invalid/".toList).result = .error .nilDereference ∧
      (sendHTTPReq unreachable "example.invalid/".toList).written = [] ∧
      (sendHTTPSReq unreachable "example.invalid/".toList).written = [] ∧
      (sendHTTPReq unreachable "example.invalid/".toList).parsed = false ∧
      (sendHTTPSReq unreachable "example.invalid/".toList).parsed = false := by
  refine ⟨?_, ?_, ?_, ?_, ?_, ?_⟩ <;> rfl

/-! ## Claims on the profiling engine -/

theorem record_success (a : Aggregate) (t : TaskResult) (h : t.errorCode = 200) :
    (record a t).successes = a.successes + 1 ∧
      (record a t).responseTimes = a.responseTimes ++ [t.millis] ∧
      (record a t).errorCodes = a.errorCodes := by
  simp [record, h]

theorem record_failure (a : Aggregate) (t : TaskResult) (h : t.errorCode ≠ 200) :
    (record a t).successes = a.successes ∧
      (record a t).responseTimes = a.responseTimes ∧
      (record a t).errorCodes = a.errorCodes ++ [t.errorCode] := by
  simp [record, h]

/-- The counters after folding `tasks` into any state that already satisfies
`successes == len(responseTimes)`. -/
theorem foldl_record_counts :
    ∀ (tasks : List TaskResult) (a : Aggregate),
      a.successes = a.responseTimes.length →
      (tasks.foldl record a).successes = (tasks.foldl record a).responseTimes.length ∧
      (tasks.foldl record a).successes + (tasks.foldl record a).errorCodes.length =
        a.successes + a.errorCodes.length + tasks.length ∧
      (tasks.foldl record a).successes =
        a.successes + tasks.countP (fun t => decide (t.errorCode = 200)) := by
  intro tasks
  induction tasks with
  | nil => intro a h; simp [h]
  | cons t ts ih =>
    intro a h
    by_cases hc : t.errorCode = 200
    · obtain ⟨h1, h2, h3⟩ := record_success a t hc
      have hinv : (record a t).successes = (record a t).responseTimes.length := by
        rw [h1, h2, h]; simp
      obtain ⟨i1, i2, i3⟩ := ih (record a t) hinv
      simp only [List.foldl_cons]
      refine ⟨i1, ?_, ?_⟩
      · rw [i2, h1, h3]; simp only [List.length_cons, Nat.cast_add, Nat.cast_one]; ring
      · rw [i3, h1, List.countP_cons_of_pos _ _ (by simpa using hc)]
        simp only [Nat.cast_add, Nat.cast_one]; ring
    · obtain ⟨h1, h2, h3⟩ := record_failure a t hc
      have hinv : (record a t).successes = (record a t).responseTimes.length := by
        rw [h1, h2, h]
      obtain ⟨i1, i2, i3⟩ := ih (record a t) hinv
      simp only [List.foldl_cons]
      refine ⟨i1, ?_, ?_⟩
      · rw [i2, h1, h3]
        simp only [List.length_append, List.length_cons, List.length_nil, Nat.cast_add,
          Nat.cast_one, Nat.cast_zero]
        ring
      · rw [i3, h1, List.countP_cons_of_neg _ _ (by simpa using hc)]

theorem aggregate_counts (tasks : List TaskResult) :
    (aggregate tasks).successes = (aggregate tasks).responseTimes.length ∧
      (aggregate tasks).successes + (aggregate tasks).errorCodes.length = tasks.length ∧
      (aggregate tasks).successes = tasks.countP (fun t => decide (t.errorCode = 200)) := by
  have h := foldl_record_counts tasks Aggregate.init rfl
  simpa [aggregate, Aggregate.init] using h

/-- C8: after any number `k` of recorded tasks, in whatever order they complete, and so also
once all have reported, `successes == len(responseTimes)` and `successes + len(errorCodes)` is
the number of tasks recorded; the successes are exactly the tasks whose status code is 200. -/
theorem aggregate_invariant (tasks : List TaskResult) (k : Nat) :
    (aggregate (tasks.take k)).successes = (aggregate (tasks.take k)).responseTimes.length ∧
      (aggregate (tasks.take k)).successes + (aggregate (tasks.take k)).errorCodes.length =
        (min k tasks.length : Nat) ∧
      (aggregate (tasks.take k)).successes =
        (tasks.take k).countP (fun t => decide (t.errorCode = 200)) ∧
      (aggregate tasks).successes = (aggregate tasks).responseTimes.length ∧
      (aggregate tasks).successes + (aggregate tasks).errorCodes.length = tasks.length ∧
      (∀ (a : Aggregate) (t : TaskResult),
        (record a t).successes = a.successes + (if t.errorCode = 200 then 1 else 0)) := by
  obtain ⟨h1, h2, h3⟩ := aggregate_counts (tasks.take k)
  obtain ⟨g1, g2, _⟩ := aggregate_counts tasks
  refine ⟨h1, ?_, h3, g1, g2, ?_⟩
  · rw [h2, List.length_take]
  · intro a t
    by_cases hc : t.errorCode = 200
    · simp [record, hc]
    · simp [record, hc]

theorem tdiv_two_natCast (n : Nat) : (n : Int).tdiv 2 = ((n / 2 : Nat) : Int) := by
  rw [Int.tdiv_eq_ediv (Int.ofNat_nonneg n) (by decide)]
  simp

theorem tdiv_two_pred_natCast (n : Nat) (h : 0 < n) :
    ((n : Int) - 1).tdiv 2 = (((n - 1) / 2 : Nat) : Int) := by
  have e : (n : Int) - 1 = ((n - 1 : Nat) : Int) := by omega
  rw [e, tdiv_two_natCast]

/-- On a non-empty slice both index reads of the median expression are in range. -/
theorem median_eq (t : List Int) (h : 0 < t.length) :
    ∃ hi lo, t[t.length / 2]? = some hi ∧ t[(t.length - 1) / 2]? = some lo ∧
      median t = .ok ((hi + lo).tdiv 2) := by
  have h1 : t.length / 2 < t.length := by omega
  have h2 : (t.length - 1) / 2 < t.length := by omega
  refine ⟨t[t.length / 2], t[(t.length - 1) / 2], List.getElem?_eq_getElem h1,
    List.getElem?_eq_getElem h2, ?_⟩
  simp only [median, tdiv_two_natCast, tdiv_two_pred_natCast _ h, index_ok _ _ h1,
    index_ok _ _ h2]

theorem sortInts_length (xs : List Int) : (sortInts xs).length = xs.length := by
  simp [sortInts]

theorem sortInts_nonneg (xs : List Int) (h : ∀ x ∈ xs, 0 ≤ x) (i : Nat) (v : Int)
    (hv : (sortInts xs)[i]? = some v) : 0 ≤ v := by
  have hm : v ∈ sortInts xs := List.getElem?_mem hv
  exact h v ((List.perm_insertionSort (· ≤ ·) xs).mem_iff.mp hm)

/-- The median expression of line 224 on the sorted list `t` of length `n`, for non-empty
non-negative `times`: `t[n/2]` when `n` is odd, the floor of the average of `t[n/2 - 1]` and
`t[n/2]` when `n` is even. -/
theorem sortedMedian_spec (times : List Int) (hne : times ≠ []) (hpos : ∀ x ∈ times, 0 ≤ x) :
    List.Sorted (· ≤ ·) (sortInts times) ∧ (sortInts times).Perm times ∧
    ∃ m, median (sortInts times) = .ok m ∧
      ((sortInts times).length % 2 = 1 → (sortInts times)[(sortInts times).length / 2]? = some m) ∧
      ((sortInts times).length % 2 = 0 →
        ∃ a b, (sortInts times)[(sortInts times).length / 2 - 1]? = some a ∧
          (sortInts times)[(sortInts times).length / 2]? = some b ∧
          m = ⌊((a + b : Int) : ℚ) / 2⌋) := by
  have hlen : 0 < (sortInts times).length := by
    rw [sortInts_length]; exact List.length_pos.mpr hne
  refine ⟨List.sorted_insertionSort (· ≤ ·) times, List.perm_insertionSort (· ≤ ·) times, ?_⟩
  obtain ⟨hi, lo, hhi, hlo, hmed⟩ := median_eq (sortInts times) hlen
  have nhi : 0 ≤ hi := sortInts_nonneg times hpos _ _ hhi
  have nlo : 0 ≤ lo := sortInts_nonneg times hpos _ _ hlo
  refine ⟨(hi + lo).tdiv 2, hmed, ?_, ?_⟩
  · intro hodd
    have e : ((sortInts times).length - 1) / 2 = (sortInts times).length / 2 := by omega
    rw [e, hhi] at hlo
    obtain rfl : hi = lo := by simpa using hlo
    rw [hhi, Int.tdiv_eq_ediv (by omega) (by decide)]
    congr 1
    omega
  · intro heven
    have e : ((sortInts times).length - 1) / 2 = (sortInts times).length / 2 - 1 := by omega
    rw [e] at hlo
    refine ⟨lo, hi, hlo, hhi, ?_⟩
    rw [Int.tdiv_eq_ediv (by omega) (by decide)]
    have := Rat.floor_intCast_div_natCast (lo + hi) 2
    simp only [Nat.cast_ofNat] at this
    rw [this, add_comm]

theorem foldl_record_times :
    ∀ (tasks : List TaskResult) (a : Aggregate),
      (tasks.foldl record a).responseTimes = a.responseTimes ++ successTimes tasks := by
  intro tasks
  induction tasks with
  | nil => intro a; simp [successTimes]
  | cons t ts ih =>
    intro a
    by_cases hc : t.errorCode = 200
    · obtain ⟨_, h2, _⟩ := record_success a t hc
      rw [List.foldl_cons, ih, h2]
      simp [successTimes, hc]
    · obtain ⟨_, h2, _⟩ := record_failure a t hc
      rw [List.foldl_cons, ih, h2]
      simp [successTimes, hc]

/-- The slice `responseTimes` after a run holds the times of the successful tasks, in
completion order. -/
theorem aggregate_responseTimes (tasks : List TaskResult) :
    (aggregate tasks).responseTimes = successTimes tasks := by
  simpa [aggregate, Aggregate.init] using foldl_record_times tasks Aggregate.init

/-- With at least one success the reporting step ends normally and prints statistics, among
them the value of the median expression on the sorted `responseTimes`. -/
theorem sendMultipleReqs_stats (url : List Char) (tasks : List TaskResult)
    (hs : (aggregate tasks).successes > 0) :
    ∃ rep st, sendMultipleReqs url tasks = .ok rep ∧ rep.stats = some st ∧
      median (sortInts (aggregate tasks).responseTimes) = .ok st.median ∧
      index (sortInts (aggregate tasks).responseTimes) 0 = .ok st.fastest ∧
      index (sortInts (aggregate tasks).responseTimes)
        (((sortInts (aggregate tasks).responseTimes).length : Int) - 1) = .ok st.slowest := by
  obtain ⟨hinv, _, _⟩ := aggregate_counts tasks
  have hlen : 0 < (sortInts (aggregate tasks).responseTimes).length := by
    rw [sortInts_length]; omega
  obtain ⟨first, h0⟩ := index_in_range (sortInts (aggregate tasks).responseTimes) 0
    (le_refl _) (by omega)
  obtain ⟨last, hl⟩ := index_in_range (sortInts (aggregate tasks).responseTimes)
    (((sortInts (aggregate tasks).responseTimes).length : Int) - 1) (by omega) (by omega)
  obtain ⟨hi, lo, _, _, hmed⟩ := median_eq (sortInts (aggregate tasks).responseTimes) hlen
  have hrep : sendMultipleReqs url tasks = .ok
      { url := url
        numReqs := tasks.length
        successes := (aggregate tasks).successes
        stats := some
          { fastest := first
            slowest := last
            meanDividend := (aggregate tasks).responseTimesSum
            meanDivisor := (aggregate tasks).successes
            median := (hi + lo).tdiv 2
            errorCodes := (aggregate tasks).errorCodes
            largest := (aggregate tasks).largestResponseSize
            smallest := (aggregate tasks).smallestResponseSize } } := by
    simp only [sendMultipleReqs, report, hs, if_true, h0, hl, hmed]
  exact ⟨_, _, hrep, rfl, hmed, h0, hl⟩

/-- C9: for every run whose successful tasks have non-negative response times, at least one of
them, `sendMultipleReqs` reports a median: the value of `(t[n/2] + t[(n-1)/2]) / 2` on the
ascending-sorted list `t` of those times, of length `n`.  It is the middle element `t[n/2]`
when `n` is odd and the floor of the average of the two middle elements `t[n/2 - 1]`, `t[n/2]`
when `n` is even. -/
theorem reported_median_middle (url : List Char) (tasks : List TaskResult)
    (hne : successTimes tasks ≠ []) (hpos : ∀ x ∈ successTimes tasks, 0 ≤ x) :
    List.Sorted (· ≤ ·) (sortInts (successTimes tasks)) ∧
    (sortInts (successTimes tasks)).Perm (successTimes tasks) ∧
    ∃ rep st, sendMultipleReqs url tasks = .ok rep ∧ rep.stats = some st ∧
      median (sortInts (successTimes tasks)) = .ok st.median ∧
      ((sortInts (successTimes tasks)).length % 2 = 1 →
        (sortInts (successTimes tasks))[(sortInts (successTimes tasks)).length / 2]? =
          some st.median) ∧
      ((sortInts (successTimes tasks)).length % 2 = 0 →
        ∃ a b,
          (sortInts (successTimes tasks))[(sortInts (successTimes tasks)).length / 2 - 1]? =
            some a ∧
          (sortInts (successTimes tasks))[(sortInts (successTimes tasks)).length / 2]? =
            some b ∧
          st.median = ⌊((a + b : Int) : ℚ) / 2⌋) := by
  obtain ⟨hsorted, hperm, m, hm, hodd, heven⟩ := sortedMedian_spec (successTimes tasks) hne hpos
  obtain ⟨hinv, _, _⟩ := aggregate_counts tasks
  have hs : (aggregate tasks).successes > 0 := by
    rw [hinv, aggregate_responseTimes]
    exact_mod_cast List.length_pos.mpr hne
  obtain ⟨rep, st, hrep, hst, hmed, _, _⟩ := sendMultipleReqs_stats url tasks hs
  rw [aggregate_responseTimes] at hmed
  have hmst : m = st.median := by
    rw [hm] at hmed
    exact Except.ok.inj hmed
  subst hmst
  exact ⟨hsorted, hperm, rep, st, hrep, hst, hm, hodd, heven⟩

/-- C9, at the specification's examples: a run whose successes took 30, 10 and 20 ms reports the
median 20, and one whose successes took 10, 20, 30 and 40 ms reports 25. -/
theorem reported_median_middle_witness :
    (∃ rep st, sendMultipleReqs "a.com".toList
        [⟨200, [], 30⟩, ⟨404, [], 7⟩, ⟨200, [], 10⟩, ⟨200, [], 20⟩] = .ok rep ∧
      rep.stats = some st ∧ st.median = 20) ∧
    (∃ rep st, sendMultipleReqs "a.com".toList
        [⟨200, [], 10⟩, ⟨200, [], 20⟩, ⟨200, [], 30⟩, ⟨200, [], 40⟩] = .ok rep ∧
      rep.stats = some st ∧ st.median = 25) := by
  obtain ⟨_, _, rep, st, hrep, hst, _, hodd, _⟩ := reported_median_middle "a.com".toList
    [⟨200, [], 30⟩, ⟨404, [], 7⟩, ⟨200, [], 10⟩, ⟨200, [], 20⟩] (by decide) (by decide)
  obtain ⟨_, _, rep2, st2, hrep2, hst2, _, _, heven⟩ := reported_median_middle "a.com".toList
    [⟨200, [], 10⟩, ⟨200, [], 20⟩, ⟨200, [], 30⟩, ⟨200, [], 40⟩] (by decide) (by decide)
  refine ⟨⟨rep, st, hrep, hst, ?_⟩, ⟨rep2, st2, hrep2, hst2, ?_⟩⟩
  · have h := hodd (by decide)
    have e : (sortInts (successTimes
        [⟨200, [], 30⟩, ⟨404, [], 7⟩, ⟨200, [], 10⟩, ⟨200, [], 20⟩]))[(sortInts (successTimes
        [⟨200, [], 30⟩, ⟨404, [], 7⟩, ⟨200, [], 10⟩, ⟨200, [], 20⟩])).length / 2]? =
        some 20 := by decide
    rw [e] at h
    exact (Option.some.inj h).symm
  · obtain ⟨a, b, ha, hb, hab⟩ := heven (by decide)
    have ea : (sortInts (successTimes
        [⟨200, [], 10⟩, ⟨200, [], 20⟩, ⟨200, [], 30⟩, ⟨200, [], 40⟩]))[(sortInts (successTimes
        [⟨200, [], 10⟩, ⟨200, [], 20⟩, ⟨200, [], 30⟩, ⟨200, [], 40⟩])).length / 2 - 1]? =
        some 20 := by decide
    have eb : (sortInts (successTimes
        [⟨200, [], 10⟩, ⟨200, [], 20⟩, ⟨200, [], 30⟩, ⟨200, [], 40⟩]))[(sortInts (successTimes
        [⟨200, [], 10⟩, ⟨200, [], 20⟩, ⟨200, [], 30⟩, ⟨200, [], 40⟩])).length / 2]? =
        some 30 := by decide
    rw [ea] at ha
    rw [eb] at hb
    obtain rfl := Option.some.inj ha
    obtain rfl := Option.some.inj hb
    rw [hab]
    norm_num

/-- C10: for every number of requests, zero included, and every sequence of task outcomes, the
reporting step ends normally.  With no success it reports the URL, the request count and the
success count only; with at least one success the divisor of the mean is not zero and the
indices `0`, `len-1`, `len/2` and `(len-1)/2` lie within the sorted `responseTimes`. -/
theorem report_guarded (url : List Char) (tasks : List TaskResult) :
    ∃ rep, sendMultipleReqs url tasks = .ok rep ∧
      rep.url = url ∧ rep.numReqs = tasks.length ∧
      rep.successes = (aggregate tasks).successes ∧
      ((aggregate tasks).successes = 0 → rep.stats = none) ∧
      ((aggregate tasks).successes > 0 →
        (∃ st, rep.stats = some st ∧ st.meanDivisor ≠ 0) ∧
        (0 : Int) < (sortInts (aggregate tasks).responseTimes).length ∧
        (0 : Int) ≤ ((sortInts (aggregate tasks).responseTimes).length : Int) - 1 ∧
        ((sortInts (aggregate tasks).responseTimes).length : Int) - 1 <
          (sortInts (aggregate tasks).responseTimes).length ∧
        0 ≤ ((sortInts (aggregate tasks).responseTimes).length : Int).tdiv 2 ∧
        ((sortInts (aggregate tasks).responseTimes).length : Int).tdiv 2 <
          (sortInts (aggregate tasks).responseTimes).length ∧
        0 ≤ (((sortInts (aggregate tasks).responseTimes).length : Int) - 1).tdiv 2 ∧
        (((sortInts (aggregate tasks).responseTimes).length : Int) - 1).tdiv 2 <
          (sortInts (aggregate tasks).responseTimes).length) := by
  obtain ⟨hinv, _, _⟩ := aggregate_counts tasks
  by_cases hs : (aggregate tasks).successes > 0
  · have hlen : 0 < (sortInts (aggregate tasks).responseTimes).length := by
      rw [sortInts_length]; omega
    have h0 := index_ok (sortInts (aggregate tasks).responseTimes) 0 hlen
    obtain ⟨last, hl⟩ := index_in_range (sortInts (aggregate tasks).responseTimes)
      (((sortInts (aggregate tasks).responseTimes).length : Int) - 1) (by omega) (by omega)
    simp only [Nat.cast_zero] at h0
    obtain ⟨hi, lo, _, _, hmed⟩ := median_eq (sortInts (aggregate tasks).responseTimes) hlen
    have hrep : sendMultipleReqs url tasks = .ok
        { url := url
          numReqs := tasks.length
          successes := (aggregate tasks).successes
          stats := some
            { fastest := (sortInts (aggregate tasks).responseTimes)[0]
              slowest := last
              meanDividend := (aggregate tasks).responseTimesSum
              meanDivisor := (aggregate tasks).successes
              median := (hi + lo).tdiv 2
              errorCodes := (aggregate tasks).errorCodes
              largest := (aggregate tasks).largestResponseSize
              smallest := (aggregate tasks).smallestResponseSize } } := by
      simp only [sendMultipleReqs, report, hs, if_true, h0, hl, hmed]
    refine ⟨_, hrep, rfl, rfl, rfl, fun hz => absurd hz (by omega), fun _ => ⟨⟨_, rfl, ?_⟩, ?_⟩⟩
    · show (aggregate tasks).successes ≠ 0
      omega
    · rw [tdiv_two_natCast, tdiv_two_pred_natCast _ hlen]
      omega
  · have hrep : sendMultipleReqs url tasks = .ok
        { url := url
          numReqs := tasks.length
          successes := (aggregate tasks).successes
          stats := none } := by
      simp only [sendMultipleReqs, report, hs, if_false]
    exact ⟨_, hrep, rfl, rfl, rfl, fun _ => rfl, fun h => absurd h hs⟩

end HttpTool
